import Mathlib

/-!
Verification of the ADStruct `FixedQueue` circular buffer
(src/include/FixedQueue.h) against its specification.

The queue state is embedded shallowly: the raw buffer `m_data` becomes a
`List T` of length `m_fixed_size`, the `size_t` fields become `Nat`, and the
logical sequence of the queue is recovered by `toVector`.  Functions whose
bodies appear in the header (`front`, `back`, `size`, `length`, `full`,
`empty`) are translated directly from the source; functions whose bodies live
in the missing `FixedQueue.ipp` (`push_back`, `pop_front`, `operator[]`,
the statistics scans, the iterators and the constructor of `FixedQueue`) are
modelled from the specification and carry a doc comment saying so.
-/

namespace ADS

/-- Error taxonomy of spec section 7: EmptyAccess, OutOfRange, Underflow. -/
inductive QueueError
  | EmptyAccess
  | OutOfRange
  | Underflow
  deriving DecidableEq

/-- State of `ADS::Bases::FixedQueueBase<T>` (FixedQueue.h lines 42-154).
`m_data` is the raw buffer (a pointer in C++, a list of the buffer's
`m_fixed_size` cells here), `m_size` the occupancy, `m_front_index` the
physical slot of the logically-first element. -/
structure FixedQueueBase (T : Type) where
  m_fixed_size : Nat
  m_size : Nat
  m_front_index : Nat
  m_data : List T
  deriving DecidableEq

namespace FixedQueueBase

variable {T : Type} [Inhabited T]

/-- `T front() { return m_data[m_front_index]; }` (FixedQueue.h line 49-50). -/
def front (q : FixedQueueBase T) : T :=
  q.m_data.getD q.m_front_index default

/-- `T back() { return m_data[(m_front_index + m_size) % m_fixed_size]; }`
(FixedQueue.h line 76-77).  Note the source really computes
`(m_front_index + m_size) % m_fixed_size`, with no `- 1`. -/
def back (q : FixedQueueBase T) : T :=
  q.m_data.getD ((q.m_front_index + q.m_size) % q.m_fixed_size) default

/-- `size_t size() const { return m_fixed_size; }` (line 82). -/
def size (q : FixedQueueBase T) : Nat := q.m_fixed_size

/-- `size_t length() const { return m_size; }` (line 83). -/
def length (q : FixedQueueBase T) : Nat := q.m_size

/-- `bool full() { return length() == size(); }` (line 85). -/
def full (q : FixedQueueBase T) : Bool := decide (q.length = q.size)

/-- `bool empty() { return length() == 0; }` (line 86). -/
def empty (q : FixedQueueBase T) : Bool := decide (q.length = 0)

/-- `back()` with the C++ undefinedness of `% 0` made explicit: when
`m_fixed_size = 0` the source expression `(m_front_index + m_size) %
m_fixed_size` is a modulo by zero, which is undefined behavior in C++, so the
checked embedding returns `none` there and `some (back q)` otherwise. -/
def backChecked (q : FixedQueueBase T) : Option T :=
  if q.m_fixed_size = 0 then none else some (back q)

/-- Element at logical offset `i` from the front: physical slot
`(m_front_index + i) % m_fixed_size` (spec section 3, Index Arithmetic). -/
def getLogical (q : FixedQueueBase T) (i : Nat) : T :=
  q.m_data.getD ((q.m_front_index + i) % q.m_fixed_size) default

/-- Modelled from the spec: `toVector` is implemented in FixedQueue.ipp,
absent from src/.  Spec section 4.1: materialize the logical run,
front-to-back. -/
def toVector (q : FixedQueueBase T) : List T :=
  (List.range q.m_size).map (getLogical q)

/-- Modelled from the spec: `push_back` is implemented in FixedQueue.ipp,
absent from src/.  Spec section 4.1: if `size < capacity`, write `elem` at
the next physical slot `(front_index + size) mod capacity` and increment
`size`; if full, overwrite the slot at `front_index` with `elem` and advance
`front_index` by one mod capacity, leaving `size` at `capacity`. -/
def push_back (q : FixedQueueBase T) (elem : T) : FixedQueueBase T :=
  if q.m_size < q.m_fixed_size then
    { q with
      m_data := q.m_data.set ((q.m_front_index + q.m_size) % q.m_fixed_size) elem
      m_size := q.m_size + 1 }
  else
    { q with
      m_data := q.m_data.set q.m_front_index elem
      m_front_index := (q.m_front_index + 1) % q.m_fixed_size }

/-- Modelled from the spec: `pop_front` is implemented in FixedQueue.ipp,
absent from src/.  Spec sections 4.1 and 7: remove the `count` logically-first
elements by advancing `front_index` by `count` mod capacity and decrementing
`size` by `count`; fail with Underflow when `count > size`, rejecting the
whole call (an error result carries no new state, so the caller's state is
untouched). -/
def pop_front (q : FixedQueueBase T) (count : Nat) :
    Except QueueError (FixedQueueBase T) :=
  if q.m_size < count then
    Except.error QueueError.Underflow
  else
    Except.ok
      { q with
        m_front_index := (q.m_front_index + count) % q.m_fixed_size
        m_size := q.m_size - count }

/-- State after `pop_front`; on Underflow the state is unchanged. -/
def popOr (q : FixedQueueBase T) (count : Nat) : FixedQueueBase T :=
  match pop_front q count with
  | Except.ok q2 => q2
  | Except.error _ => q

/-- Modelled from the spec: `operator[]` and `projectIndex` are implemented
in FixedQueue.ipp, absent from src/.  Spec section 4.1: return the element at
logical offset `index` via `(front_index + index) mod capacity`; fail with
OutOfRange when `index >= size`. -/
def getIndex (q : FixedQueueBase T) (index : Nat) : Except QueueError T :=
  if q.m_size ≤ index then
    Except.error QueueError.OutOfRange
  else
    Except.ok (q.m_data.getD ((q.m_front_index + index) % q.m_fixed_size) default)

/-- Well-formedness of a queue state: the buffer really has `m_fixed_size`
cells and the invariants of spec section 3 hold (`front_index < capacity`,
`size ≤ capacity`). -/
def WF (q : FixedQueueBase T) : Prop :=
  q.m_data.length = q.m_fixed_size ∧
  q.m_front_index < q.m_fixed_size ∧
  q.m_size ≤ q.m_fixed_size

/-- Follows the words of the spec, for comparison with the code's `front`:
section 7 demands that `front()` fail with EmptyAccess when `length() == 0`. -/
def frontSpec (q : FixedQueueBase T) : Except QueueError T :=
  if q.m_size = 0 then Except.error QueueError.EmptyAccess else Except.ok q.front

/-- Follows the words of the spec, for comparison with the code's `back`:
section 7 demands that `back()` fail with EmptyAccess when `length() == 0`. -/
def backSpec (q : FixedQueueBase T) : Except QueueError T :=
  if q.m_size = 0 then Except.error QueueError.EmptyAccess else Except.ok q.back

end FixedQueueBase

/-- Modelled from the spec: the bodies of `FixedQueueIterator`'s operators are
in FixedQueue.ipp, absent from src/.  Spec section 4.2: the cursor holds a
current physical pointer (here `m_ptr`, a slot index into the underlying
array, the array bounds `m_q_front`/`m_q_back` being slots `0` and
`capacity - 1`), plus the wraparound-completion flag `past_self`
(FixedQueue.h lines 219-223). -/
structure FixedQueueIterator where
  m_ptr : Nat
  past_self : Bool
  deriving DecidableEq

namespace FixedQueueIterator

/-- Modelled from the spec: `operator++` is implemented in FixedQueue.ipp,
absent from src/.  Spec section 4.2: advance the physical pointer by one;
when it runs past the underlying array's end, wrap it back to the array
start and set the wraparound-completion flag. -/
def inc (cap : Nat) (it : FixedQueueIterator) : FixedQueueIterator :=
  if cap ≤ it.m_ptr + 1 then ⟨0, true⟩ else ⟨it.m_ptr + 1, it.past_self⟩

/-- `inc` iterated `k` times. -/
def incN (cap : Nat) (it : FixedQueueIterator) : Nat → FixedQueueIterator
  | 0 => it
  | k + 1 => inc cap (incN cap it k)

/-- Modelled from the spec: `operator==` is implemented in FixedQueue.ipp,
absent from src/.  Spec section 4.2: equality between two cursors requires
both the physical pointer and the flag to match. -/
def beq (a b : FixedQueueIterator) : Bool :=
  decide (a.m_ptr = b.m_ptr) && decide (a.past_self = b.past_self)

end FixedQueueIterator

namespace FixedQueueBase

variable {T : Type} [Inhabited T]

/-- Modelled from the spec: `begin` is implemented in FixedQueue.ipp, absent
from src/.  Spec section 4.2: the "about to begin" cursor sits at the slot of
the logically-first element with the wraparound flag cleared. -/
def beginIter (q : FixedQueueBase T) : FixedQueueIterator :=
  ⟨q.m_front_index, false⟩

/-- Modelled from the spec: `end` is implemented in FixedQueue.ipp, absent
from src/.  Spec sections 3 and 4.2: the past-the-end cursor sits at the
next-to-be-written slot `(front_index + size) mod capacity`; its wraparound
flag is set exactly when walking the logical run from the front crosses the
underlying array's end, i.e. when `front_index + size ≥ capacity`. -/
def endIter (q : FixedQueueBase T) : FixedQueueIterator :=
  ⟨(q.m_front_index + q.m_size) % q.m_fixed_size,
    decide (q.m_fixed_size ≤ q.m_front_index + q.m_size)⟩

/-- Reading the element under the cursor (`operator*`). -/
def deref (q : FixedQueueBase T) (it : FixedQueueIterator) : T :=
  q.m_data.getD it.m_ptr default

end FixedQueueBase

/-- Modelled from the spec: the `FixedQueue(size_t size = 0)` constructor body
is in FixedQueue.ipp, absent from src/ (the default argument `size = 0` is in
the header, line 162).  Spec section 4.3: constructs with a chosen initial
capacity (default empty); the core starts at `front_index = 0`, `size = 0`
with a freshly allocated, default-initialized buffer. -/
def mkFixedQueue {T : Type} [Inhabited T] (size : Nat) : FixedQueueBase T :=
  ⟨size, 0, 0, List.replicate size default⟩

namespace FixedQueueBase

variable {T : Type} [Inhabited T] [LinearOrder T]

/-- Forward scan keeping the index of the first strictly-largest element seen:
`best` is the best index so far, `i` the next logical index to examine, the
last argument the number of indices left to examine. -/
def scanMaxIdx (q : FixedQueueBase T) (best i : Nat) : Nat → Nat
  | 0 => best
  | n + 1 =>
    scanMaxIdx q (if getLogical q best < getLogical q i then i else best) (i + 1) n

/-- Forward scan keeping the index of the first strictly-smallest element. -/
def scanMinIdx (q : FixedQueueBase T) (best i : Nat) : Nat → Nat
  | 0 => best
  | n + 1 =>
    scanMinIdx q (if getLogical q i < getLogical q best then i else best) (i + 1) n

/-- Modelled from the spec: `iOfMax` is implemented in FixedQueue.ipp, absent
from src/.  Spec section 4.1: scan logical elements from `offset` through the
end of the logical run; on ties the first occurrence from `offset` wins; fail
with OutOfRange when `offset >= size`. -/
def iOfMax (q : FixedQueueBase T) (offset : Nat) : Except QueueError Nat :=
  if q.m_size ≤ offset then Except.error QueueError.OutOfRange
  else Except.ok (scanMaxIdx q offset (offset + 1) (q.m_size - (offset + 1)))

/-- Modelled from the spec: `iOfMin` is implemented in FixedQueue.ipp, absent
from src/.  Same contract as `iOfMax` with the minimum. -/
def iOfMin (q : FixedQueueBase T) (offset : Nat) : Except QueueError Nat :=
  if q.m_size ≤ offset then Except.error QueueError.OutOfRange
  else Except.ok (scanMinIdx q offset (offset + 1) (q.m_size - (offset + 1)))

/-- Modelled from the spec: `max` is implemented in FixedQueue.ipp, absent
from src/.  Spec section 4.1: the maximum value inside the queue from
`offset`; OutOfRange when `offset >= size`. -/
def max (q : FixedQueueBase T) (offset : Nat) : Except QueueError T :=
  match iOfMax q offset with
  | Except.ok i => Except.ok (getLogical q i)
  | Except.error e => Except.error e

/-- Modelled from the spec: `min` is implemented in FixedQueue.ipp, absent
from src/.  Spec section 4.1: the minimum value inside the queue from
`offset`; OutOfRange when `offset >= size`. -/
def min (q : FixedQueueBase T) (offset : Nat) : Except QueueError T :=
  match iOfMin q offset with
  | Except.ok i => Except.ok (getLogical q i)
  | Except.error e => Except.error e

end FixedQueueBase

/-- A single-element operation for the FIFO property: push one element or pop
one element off the front (spec section 8, FIFO order preserved under
wraparound). -/
inductive FifoOp (T : Type) where
  | push (e : T)
  | pop

/-- Legality of an operation sequence: a push never lands on a full queue and
a pop never targets an empty queue (the claim's side condition). -/
def FixedQueueBase.legal {T : Type} [Inhabited T] (q : ADS.FixedQueueBase T) :
    List (FifoOp T) → Bool
  | [] => true
  | FifoOp.push e :: r =>
    decide (q.m_size < q.m_fixed_size) && legal (q.push_back e) r
  | FifoOp.pop :: r => decide (0 < q.m_size) && legal (q.popOr 1) r

/-- Run an operation sequence, recording for every successful `pop_front` the
value `front()` read just before the pop; the first component is the final
queue, the second the observed sequence. -/
def FixedQueueBase.runFifo {T : Type} [Inhabited T] (q : ADS.FixedQueueBase T) :
    List (FifoOp T) → ADS.FixedQueueBase T × List T
  | [] => (q, [])
  | FifoOp.push e :: r => runFifo (q.push_back e) r
  | FifoOp.pop :: r =>
    match q.pop_front 1 with
    | Except.ok q2 => ((runFifo q2 r).1, q.front :: (runFifo q2 r).2)
    | Except.error _ => runFifo q r

/-- The elements a sequence of operations pushes, in push order. -/
def pushedList {T : Type} : List (FifoOp T) → List T
  | [] => []
  | FifoOp.push e :: r => e :: pushedList r
  | FifoOp.pop :: r => pushedList r

/-- A general queue operation for the state invariant (spec section 8):
a single-element push or a `pop_front(count)`. -/
inductive QOp (T : Type) where
  | push (e : T)
  | pop (count : Nat)

/-- Apply one operation; a pop that fails with Underflow leaves the state
unchanged (the error is reported to the caller, who keeps the old queue). -/
def applyOp {T : Type} [Inhabited T] (q : FixedQueueBase T) : QOp T → FixedQueueBase T
  | QOp.push e => q.push_back e
  | QOp.pop c => q.popOr c

/-- Apply a sequence of operations in order. -/
def applyOps {T : Type} [Inhabited T] (q : FixedQueueBase T)
    (ops : List (QOp T)) : FixedQueueBase T :=
  ops.foldl applyOp q

/-- The queue state drawn in the class comment of FixedQueue.h (lines 30-38):
capacity 4, raw buffer [5,2,3,4], front at slot 1, full; the diagram marks
slot 1 (value 2) as FRONT and slot 0 (value 5) as BACK. -/
def diagramQueue : FixedQueueBase Int := ⟨4, 4, 1, [5, 2, 3, 4]⟩

/-- An empty capacity-3 queue whose stale buffer cells hold [7,8,9]. -/
def emptyQueue3 : FixedQueueBase Int := ⟨3, 0, 0, [7, 8, 9]⟩

/-- Spec section 8 scenario: capacity 5, push 10, 20, 30. -/
def scenarioQueue530 : FixedQueueBase Int :=
  FixedQueueBase.push_back
    (FixedQueueBase.push_back
      (FixedQueueBase.push_back (mkFixedQueue 5) 10) 20) 30

/-- A full capacity-3 queue with front at slot 1; logical content [10,20,30]. -/
def fullQueue3 : FixedQueueBase Int := ⟨3, 3, 1, [30, 10, 20]⟩

/-- Spec section 8 scenario after `pop_front(2)`: capacity 4, buffer
[5,2,3,4], front at slot 3, length 2, logical content [4,5]. -/
def scenarioQueue45 : FixedQueueBase Int := ⟨4, 2, 3, [5, 2, 3, 4]⟩

/-- A full capacity-4 queue, the state just before the overwrite push of the
class comment of FixedQueue.h: buffer [1,2,3,4], front 0, size 4. -/
def fullQueue4 : FixedQueueBase Int := ⟨4, 4, 0, [1, 2, 3, 4]⟩

/-- A FIFO trace that wraps around a capacity-2 buffer: push 1, push 2, pop,
push 3, pop, pop. -/
def fifoOps2 : List (FifoOp Int) :=
  [FifoOp.push 1, FifoOp.push 2, FifoOp.pop, FifoOp.push 3, FifoOp.pop, FifoOp.pop]

namespace FixedQueueBase

lemma mod_add_inj (cap f a b : Nat) (ha : a < cap) (hb : b < cap)
    (h : (f + a) % cap = (f + b) % cap) : a = b := by
  have hab : Nat.ModEq cap a b := Nat.ModEq.add_left_cancel' f h
  rcases Nat.le_total a b with hle | hle
  · have hd : cap ∣ b - a := (Nat.modEq_iff_dvd' hle).mp hab
    have hz := Nat.eq_zero_of_dvd_of_lt hd (by omega)
    omega
  · have hd : cap ∣ a - b := (Nat.modEq_iff_dvd' hle).mp hab.symm
    have hz := Nat.eq_zero_of_dvd_of_lt hd (by omega)
    omega

lemma mod_add_eq_cases {cap f k s : Nat} (hk : k ≤ s) (hs : s ≤ cap)
    (h : (f + k) % cap = (f + s) % cap) : k = s ∨ (k = 0 ∧ s = cap) := by
  have hab : Nat.ModEq cap k s := Nat.ModEq.add_left_cancel' f h
  have hd : cap ∣ s - k := (Nat.modEq_iff_dvd' hk).mp hab
  rcases hd with ⟨t, ht⟩
  rcases Nat.eq_zero_or_pos t with h0 | h1
  · subst h0; left; omega
  · right
    obtain ⟨t', rfl⟩ : ∃ t', t = t' + 1 := ⟨t - 1, by omega⟩
    have hexp : cap * (t' + 1) = cap * t' + cap := by ring
    omega

lemma getD_set_ne {T : Type} {l : List T} {i j : Nat} {a d : T} (h : i ≠ j) :
    (l.set i a).getD j d = l.getD j d := by
  simp [List.getD_eq_getElem?_getD, List.getElem?_set_ne h]

lemma getD_set_self {T : Type} {l : List T} {i : Nat} {a d : T} (h : i < l.length) :
    (l.set i a).getD i d = a := by
  simp [List.getD_eq_getElem?_getD, List.getElem?_set_self, h]

lemma push_back_of_lt {T : Type} (q : FixedQueueBase T) (e : T) (hs : q.m_size < q.m_fixed_size) :
    push_back q e = { q with
      m_data := q.m_data.set ((q.m_front_index + q.m_size) % q.m_fixed_size) e
      m_size := q.m_size + 1 } := by
  unfold push_back; rw [if_pos hs]

lemma push_back_of_full {T : Type} (q : FixedQueueBase T) (e : T) (hs : ¬ q.m_size < q.m_fixed_size) :
    push_back q e = { q with
      m_data := q.m_data.set q.m_front_index e
      m_front_index := (q.m_front_index + 1) % q.m_fixed_size } := by
  unfold push_back; rw [if_neg hs]

lemma pop_front_of_le {T : Type} (q : FixedQueueBase T) (count : Nat) (h : count ≤ q.m_size) :
    pop_front q count = Except.ok
      { q with
        m_front_index := (q.m_front_index + count) % q.m_fixed_size
        m_size := q.m_size - count } := by
  unfold pop_front
  rw [if_neg (by omega)]

lemma pop_front_of_gt {T : Type} (q : FixedQueueBase T) (count : Nat) (h : q.m_size < count) :
    pop_front q count = Except.error QueueError.Underflow := by
  unfold pop_front
  rw [if_pos h]

lemma popOr_of_le {T : Type} (q : FixedQueueBase T) (count : Nat) (h : count ≤ q.m_size) :
    popOr q count = { q with
      m_front_index := (q.m_front_index + count) % q.m_fixed_size
      m_size := q.m_size - count } := by
  unfold popOr
  rw [pop_front_of_le q count h]

lemma popOr_of_gt {T : Type} (q : FixedQueueBase T) (count : Nat) (h : q.m_size < count) :
    popOr q count = q := by
  unfold popOr
  rw [pop_front_of_gt q count h]

variable {T : Type} [Inhabited T]

lemma toVector_push_back_of_lt (q : FixedQueueBase T) (e : T)
    (hd : q.m_data.length = q.m_fixed_size) (hs : q.m_size < q.m_fixed_size) :
    toVector (push_back q e) = toVector q ++ [e] := by
  rw [push_back_of_lt q e hs]
  unfold toVector getLogical
  dsimp only
  rw [List.range_succ, List.map_append]
  congr 1
  · apply List.map_congr_left
    intro i hi
    have hi' : i < q.m_size := List.mem_range.mp hi
    apply getD_set_ne
    intro h
    have := mod_add_inj q.m_fixed_size q.m_front_index q.m_size i
      (Nat.lt_of_lt_of_le hs (Nat.le_refl _)) (by omega) h
    omega
  · dsimp only [List.map_cons, List.map_nil]
    congr 1
    apply getD_set_self
    rw [hd]
    exact Nat.mod_lt _ (by omega)

lemma toVector_push_back_of_full (q : FixedQueueBase T) (e : T)
    (hd : q.m_data.length = q.m_fixed_size) (hf : q.m_front_index < q.m_fixed_size)
    (hs : q.m_size = q.m_fixed_size) :
    toVector (push_back q e) = (toVector q).drop 1 ++ [e] := by
  rw [push_back_of_full q e (by omega)]
  have hcap : 0 < q.m_fixed_size := by omega
  unfold toVector getLogical
  dsimp only
  obtain ⟨m, hm⟩ : ∃ m, q.m_size = m + 1 := ⟨q.m_size - 1, by omega⟩
  rw [hm]
  conv_rhs =>
    rw [List.range_succ_eq_map, List.map_cons, List.map_map, List.drop_one, List.tail_cons]
  conv_lhs => rw [List.range_succ, List.map_append]
  congr 1
  · apply List.map_congr_left
    intro i hi
    have hi' : i < m := List.mem_range.mp hi
    have hstep : ((q.m_front_index + 1) % q.m_fixed_size + i) % q.m_fixed_size =
        (q.m_front_index + Nat.succ i) % q.m_fixed_size := by
      conv_rhs => rw [show q.m_front_index + Nat.succ i = q.m_front_index + 1 + i by omega]
      rw [Nat.mod_add_mod]
    rw [hstep]
    dsimp only [Function.comp]
    apply getD_set_ne
    intro hcontra
    have h2 : (q.m_front_index + 0) % q.m_fixed_size =
        (q.m_front_index + Nat.succ i) % q.m_fixed_size := by
      rw [Nat.add_zero, Nat.mod_eq_of_lt hf]
      exact hcontra
    have := mod_add_inj q.m_fixed_size q.m_front_index 0 (Nat.succ i)
      hcap (by omega) h2
    omega
  · dsimp only [List.map_cons, List.map_nil]
    congr 1
    have hslot : ((q.m_front_index + 1) % q.m_fixed_size + m) % q.m_fixed_size =
        q.m_front_index := by
      rw [Nat.mod_add_mod]
      have : q.m_front_index + 1 + m = q.m_front_index + q.m_fixed_size := by omega
      rw [this, Nat.add_mod_right, Nat.mod_eq_of_lt hf]
    rw [hslot]
    apply getD_set_self
    omega

lemma toVector_getD (q : FixedQueueBase T) (i : Nat) (hi : i < q.m_size) :
    (toVector q).getD i default = getLogical q i := by
  unfold toVector
  rw [List.getD_eq_getElem?_getD, List.getElem?_map, List.getElem?_range hi]
  rfl

lemma front_eq_getLogical_zero (q : FixedQueueBase T)
    (hf : q.m_front_index < q.m_fixed_size) : q.front = getLogical q 0 := by
  unfold front getLogical
  rw [Nat.add_zero, Nat.mod_eq_of_lt hf]

lemma toVector_cons_popOr (q : FixedQueueBase T)
    (hf : q.m_front_index < q.m_fixed_size) (hpos : 0 < q.m_size) :
    toVector q = q.front :: toVector (popOr q 1) := by
  rw [popOr_of_le q 1 hpos]
  unfold toVector getLogical
  dsimp only
  obtain ⟨m, hm⟩ : ∃ m, q.m_size = m + 1 := ⟨q.m_size - 1, by omega⟩
  rw [hm, List.range_succ_eq_map, List.map_cons, List.map_map]
  have hhead : q.m_data.getD ((q.m_front_index + 0) % q.m_fixed_size) default = q.front := by
    unfold front
    rw [Nat.add_zero, Nat.mod_eq_of_lt hf]
  rw [hhead]
  congr 1
  rw [Nat.add_sub_cancel]
  apply List.map_congr_left
  intro i _
  dsimp only [Function.comp]
  rw [Nat.mod_add_mod]
  congr 2
  omega

end FixedQueueBase

namespace FixedQueueBase

lemma WF_push_back {T : Type} (q : FixedQueueBase T) (e : T) (h : WF q) :
    WF (push_back q e) := by
  obtain ⟨hd, hf, hs⟩ := h
  rcases Nat.lt_or_ge q.m_size q.m_fixed_size with hlt | hge
  · rw [push_back_of_lt q e hlt]
    refine ⟨?_, ?_, ?_⟩ <;> dsimp only
    · rw [List.length_set]; exact hd
    · exact hf
    · omega
  · rw [push_back_of_full q e (by omega)]
    refine ⟨?_, ?_, ?_⟩ <;> dsimp only
    · rw [List.length_set]; exact hd
    · exact Nat.mod_lt _ (by omega)
    · exact hs

lemma WF_popOr {T : Type} (q : FixedQueueBase T) (count : Nat) (h : WF q) :
    WF (popOr q count) := by
  obtain ⟨hd, hf, hs⟩ := h
  rcases Nat.lt_or_ge q.m_size count with hgt | hle
  · rw [popOr_of_gt q count hgt]
    exact ⟨hd, hf, hs⟩
  · rw [popOr_of_le q count hle]
    refine ⟨hd, ?_, ?_⟩ <;> dsimp only
    · exact Nat.mod_lt _ (by omega)
    · omega

end FixedQueueBase

namespace FixedQueueIterator

/-- Closed form of `k` increments from the begin cursor: the pointer lands on
slot `(f + k) mod cap` and the wraparound flag records whether the walk
crossed the end of the array, i.e. whether `cap ≤ f + k`. -/
lemma incN_closed {cap f : Nat} (hf : f < cap) :
    ∀ k, k ≤ cap → incN cap ⟨f, false⟩ k = ⟨(f + k) % cap, decide (cap ≤ f + k)⟩ := by
  intro k
  induction k with
  | zero =>
    intro _
    unfold incN
    rw [Nat.add_zero, Nat.mod_eq_of_lt hf]
    have : decide (cap ≤ f) = false := decide_eq_false (by omega)
    rw [this]
  | succ k ih =>
    intro hk
    unfold incN
    rw [ih (by omega)]
    unfold inc
    dsimp only
    rcases Nat.lt_or_ge (f + k) cap with hlt | hge
    · rw [Nat.mod_eq_of_lt hlt]
      rcases Nat.lt_or_ge (f + k + 1) cap with hlt1 | hge1
      · rw [if_neg (by omega)]
        have h1 : (f + (k + 1)) % cap = f + k + 1 := by
          rw [Nat.mod_eq_of_lt (by omega)]
          omega
        have h2 : decide (cap ≤ f + k) = false := decide_eq_false (by omega)
        have h3 : decide (cap ≤ f + (k + 1)) = false := decide_eq_false (by omega)
        rw [h1, h2, h3]
      · -- f + k + 1 = cap: the increment wraps to slot 0 and sets the flag
        have heq : f + k + 1 = cap := by omega
        rw [if_pos (by omega)]
        have h1 : (f + (k + 1)) % cap = 0 := by
          rw [show f + (k + 1) = cap by omega, Nat.mod_self]
        have h2 : decide (cap ≤ f + (k + 1)) = true := decide_eq_true (by omega)
        rw [h1, h2]
    · -- already wrapped: cap ≤ f + k < 2 * cap, no second wrap can occur
      have hlt2 : f + k < 2 * cap := by omega
      have hmod : (f + k) % cap = f + k - cap := by
        rw [Nat.mod_eq_sub_mod hge, Nat.mod_eq_of_lt (by omega)]
      rw [hmod]
      have hnot : ¬ cap ≤ f + k - cap + 1 := by omega
      rw [if_neg hnot]
      have h1 : (f + (k + 1)) % cap = f + k - cap + 1 := by
        rw [Nat.mod_eq_sub_mod (by omega), Nat.mod_eq_of_lt (by omega)]
        omega
      have h2 : decide (cap ≤ f + k) = true := decide_eq_true hge
      have h3 : decide (cap ≤ f + (k + 1)) = true := decide_eq_true (by omega)
      rw [h1, h2, h3]

end FixedQueueIterator

namespace FixedQueueBase

/-- Main FIFO invariant: along any legal operation sequence the observed pops
followed by the residual logical content equal the starting logical content
followed by the pushed elements, and well-formedness is preserved. -/
lemma runFifo_spec {T : Type} [Inhabited T] (ops : List (FifoOp T)) :
    ∀ q : FixedQueueBase T, WF q → legal q ops = true →
      WF (runFifo q ops).1 ∧
      (runFifo q ops).2 ++ toVector (runFifo q ops).1 = toVector q ++ pushedList ops := by
  induction ops with
  | nil =>
    intro q hw _
    exact ⟨hw, by simp [runFifo, pushedList]⟩
  | cons op r ih =>
    intro q hw hl
    cases op with
    | push e =>
      simp only [legal, Bool.and_eq_true, decide_eq_true_eq] at hl
      obtain ⟨h1, h2⟩ := hl
      obtain ⟨hwf', hrec⟩ := ih (q.push_back e) (WF_push_back q e hw) h2
      refine ⟨hwf', ?_⟩
      show (runFifo (q.push_back e) r).2 ++ toVector (runFifo (q.push_back e) r).1 =
        toVector q ++ pushedList (FifoOp.push e :: r)
      rw [hrec, toVector_push_back_of_lt q e hw.1 h1]
      simp [pushedList]
    | pop =>
      simp only [legal, Bool.and_eq_true, decide_eq_true_eq] at hl
      obtain ⟨h1, h2⟩ := hl
      have hpop : q.pop_front 1 = Except.ok (q.popOr 1) := by
        rw [pop_front_of_le q 1 h1, popOr_of_le q 1 h1]
      obtain ⟨hwf', hrec⟩ := ih (q.popOr 1) (WF_popOr q 1 hw) h2
      constructor
      · show (runFifo q (FifoOp.pop :: r)).1.WF
        simp only [runFifo, hpop]
        exact hwf'
      · show (runFifo q (FifoOp.pop :: r)).2 ++ toVector (runFifo q (FifoOp.pop :: r)).1 =
          toVector q ++ pushedList (FifoOp.pop :: r)
        simp only [runFifo, hpop, pushedList]
        rw [List.cons_append, hrec, toVector_cons_popOr q hw.2.1 h1]
        simp

/-- The spec section 3 invariants are preserved by arbitrary operation
sequences. -/
lemma WF_applyOps {T : Type} [Inhabited T] (ops : List (QOp T)) :
    ∀ q : FixedQueueBase T, WF q → WF (applyOps q ops) := by
  induction ops with
  | nil => exact fun q h => h
  | cons op r ih =>
    intro q h
    show WF (applyOps (applyOp q op) r)
    apply ih
    cases op with
    | push e => exact WF_push_back q e h
    | pop c => exact WF_popOr q c h

/-- Invariant of the forward maximum scan: starting from a best index that is
the first maximum of `[off, i)`, the scan of the next `n` indices returns the
first maximum of `[off, i + n)`. -/
lemma scanMaxIdx_spec {T : Type} [Inhabited T] [LinearOrder T]
    (q : FixedQueueBase T) (off : Nat) :
    ∀ (n best i : Nat), off ≤ best → best < i →
      (∀ j, off ≤ j → j < i → getLogical q j ≤ getLogical q best) →
      (∀ j, off ≤ j → j < best → getLogical q j < getLogical q best) →
      off ≤ scanMaxIdx q best i n ∧ scanMaxIdx q best i n < i + n ∧
      (∀ j, off ≤ j → j < i + n →
        getLogical q j ≤ getLogical q (scanMaxIdx q best i n)) ∧
      (∀ j, off ≤ j → j < scanMaxIdx q best i n →
        getLogical q j < getLogical q (scanMaxIdx q best i n)) := by
  intro n
  induction n with
  | zero =>
    intro best i h1 h2 h3 h4
    unfold scanMaxIdx
    exact ⟨h1, by omega, fun j hj1 hj2 => h3 j hj1 hj2, h4⟩
  | succ n ih =>
    intro best i h1 h2 h3 h4
    unfold scanMaxIdx
    rcases lt_or_le (getLogical q best) (getLogical q i) with hc | hc
    · rw [if_pos hc]
      obtain ⟨c1, c2, c3, c4⟩ := ih i (i + 1) (by omega) (by omega)
        (by
          intro j hj1 hj2
          rcases Nat.lt_or_ge j i with hji | hji
          · exact le_of_lt (lt_of_le_of_lt (h3 j hj1 hji) hc)
          · have : j = i := by omega
            rw [this])
        (by
          intro j hj1 hj2
          exact lt_of_le_of_lt (h3 j hj1 hj2) hc)
      exact ⟨c1, by omega, fun j hj1 hj2 => c3 j hj1 (by omega), c4⟩
    · rw [if_neg (not_lt.mpr hc)]
      obtain ⟨c1, c2, c3, c4⟩ := ih best (i + 1) h1 (by omega)
        (by
          intro j hj1 hj2
          rcases Nat.lt_or_ge j i with hji | hji
          · exact h3 j hj1 hji
          · have : j = i := by omega
            rw [this]; exact hc)
        h4
      exact ⟨c1, by omega, fun j hj1 hj2 => c3 j hj1 (by omega), c4⟩

/-- Invariant of the forward minimum scan, mirror image of
`scanMaxIdx_spec`. -/
lemma scanMinIdx_spec {T : Type} [Inhabited T] [LinearOrder T]
    (q : FixedQueueBase T) (off : Nat) :
    ∀ (n best i : Nat), off ≤ best → best < i →
      (∀ j, off ≤ j → j < i → getLogical q best ≤ getLogical q j) →
      (∀ j, off ≤ j → j < best → getLogical q best < getLogical q j) →
      off ≤ scanMinIdx q best i n ∧ scanMinIdx q best i n < i + n ∧
      (∀ j, off ≤ j → j < i + n →
        getLogical q (scanMinIdx q best i n) ≤ getLogical q j) ∧
      (∀ j, off ≤ j → j < scanMinIdx q best i n →
        getLogical q (scanMinIdx q best i n) < getLogical q j) := by
  intro n
  induction n with
  | zero =>
    intro best i h1 h2 h3 h4
    unfold scanMinIdx
    exact ⟨h1, by omega, fun j hj1 hj2 => h3 j hj1 hj2, h4⟩
  | succ n ih =>
    intro best i h1 h2 h3 h4
    unfold scanMinIdx
    rcases lt_or_le (getLogical q i) (getLogical q best) with hc | hc
    · rw [if_pos hc]
      obtain ⟨c1, c2, c3, c4⟩ := ih i (i + 1) (by omega) (by omega)
        (by
          intro j hj1 hj2
          rcases Nat.lt_or_ge j i with hji | hji
          · exact le_of_lt (lt_of_lt_of_le hc (h3 j hj1 hji))
          · have : j = i := by omega
            rw [this])
        (by
          intro j hj1 hj2
          exact lt_of_lt_of_le hc (h3 j hj1 hj2))
      exact ⟨c1, by omega, fun j hj1 hj2 => c3 j hj1 (by omega), c4⟩
    · rw [if_neg (not_lt.mpr hc)]
      obtain ⟨c1, c2, c3, c4⟩ := ih best (i + 1) h1 (by omega)
        (by
          intro j hj1 hj2
          rcases Nat.lt_or_ge j i with hji | hji
          · exact h3 j hj1 hji
          · have : j = i := by omega
            rw [this]; exact hc)
        h4
      exact ⟨c1, by omega, fun j hj1 hj2 => c3 j hj1 (by omega), c4⟩

end FixedQueueBase

/-- C1: the claim says `back()` returns the element stored at physical slot
`(front_index + size - 1) mod capacity` whenever `size > 0`.  On the very
state drawn in the source's own class comment (capacity 4, buffer [5,2,3,4],
front_index 1, size 4, where the diagram marks slot 0 = value 5 as BACK),
the code's `back()` reads slot `(1 + 4) mod 4 = 1`, returning the front
element 2 instead of the element 5 at the claimed slot `(1 + 4 - 1) mod 4 =
0`: the code computes one slot past the logical last element. -/
theorem C1_back_reads_one_past_last :
    FixedQueueBase.back diagramQueue = 2 ∧
    FixedQueueBase.front diagramQueue = 2 ∧
    diagramQueue.m_size > 0 ∧
    diagramQueue.m_data.getD
      ((diagramQueue.m_front_index + diagramQueue.m_size - 1) % diagramQueue.m_fixed_size)
      default = 5 ∧
    FixedQueueBase.back diagramQueue ≠
      diagramQueue.m_data.getD
        ((diagramQueue.m_front_index + diagramQueue.m_size - 1) % diagramQueue.m_fixed_size)
        default := by
  refine ⟨rfl, rfl, by decide, rfl, by decide⟩

/-- C5: `pop_front(count)` with `count > length()` fails with Underflow and
produces no new state at all (the caller's queue is untouched, so no partial
pop happens); with `count ≤ length()` it succeeds, advancing `front_index`
by `count` mod capacity and decreasing `length()` by exactly `count`, with
capacity and buffer contents unchanged. -/
theorem C5_pop_front_all_or_nothing (T : Type) [Inhabited T]
    (q : FixedQueueBase T) (count : Nat) :
    (q.m_size < count →
      q.pop_front count = Except.error QueueError.Underflow) ∧
    (count ≤ q.m_size →
      q.pop_front count = Except.ok
        ⟨q.m_fixed_size, q.m_size - count,
          (q.m_front_index + count) % q.m_fixed_size, q.m_data⟩) := by
  constructor
  · intro h
    exact FixedQueueBase.pop_front_of_gt q count h
  · intro h
    rw [FixedQueueBase.pop_front_of_le q count h]

/-- Witness for C5 at the spec section 8 scenario state (capacity 4, logical
content [4,5]): `pop_front(3)` fails with Underflow, `pop_front(2)` advances
the front to slot 1 and empties the queue. -/
theorem C5_witness :
    (scenarioQueue45.m_size < 3 ∧
      FixedQueueBase.pop_front scenarioQueue45 3 = Except.error QueueError.Underflow) ∧
    (2 ≤ scenarioQueue45.m_size ∧
      FixedQueueBase.pop_front scenarioQueue45 2 =
        Except.ok ⟨4, 0, 1, [5, 2, 3, 4]⟩) :=
  ⟨⟨by decide, (C5_pop_front_all_or_nothing Int scenarioQueue45 3).1 (by decide)⟩,
   ⟨by decide, (C5_pop_front_all_or_nothing Int scenarioQueue45 2).2 (by decide)⟩⟩

/-- C6 counterexample: on an empty capacity-3 queue the spec-mandated
behaviour (`frontSpec`/`backSpec`, following the words of spec section 7) is
an EmptyAccess failure, but the code's `front()` and `back()` (whose full
bodies are in the header) perform no emptiness check: they return the stale
buffer cell 7, failing with nothing. -/
theorem C6_counterexample :
    FixedQueueBase.length emptyQueue3 = 0 ∧
    FixedQueueBase.frontSpec emptyQueue3 = Except.error QueueError.EmptyAccess ∧
    FixedQueueBase.backSpec emptyQueue3 = Except.error QueueError.EmptyAccess ∧
    FixedQueueBase.front emptyQueue3 = 7 ∧
    FixedQueueBase.back emptyQueue3 = 7 :=
  ⟨rfl, rfl, rfl, rfl, rfl⟩

/-- C6 amended: on an empty queue (with `front_index < capacity`), `front()`
and `back()` do not fail at all; `front()` returns the stale contents of
physical slot `front_index`, and `back()` reads slot
`(front_index + size) mod capacity`, which for `size = 0` is the same slot. -/
theorem C6_amended_no_empty_check (T : Type) [Inhabited T]
    (q : FixedQueueBase T) (hf : q.m_front_index < q.m_fixed_size)
    (h0 : q.m_size = 0) :
    q.front = q.m_data.getD q.m_front_index default ∧ q.back = q.front := by
  refine ⟨rfl, ?_⟩
  unfold FixedQueueBase.back FixedQueueBase.front
  rw [h0, Nat.add_zero, Nat.mod_eq_of_lt hf]

/-- Witness for the amended C6 on the empty capacity-3 queue. -/
theorem C6_amended_witness :
    emptyQueue3.m_front_index < emptyQueue3.m_fixed_size ∧
    emptyQueue3.m_size = 0 ∧
    (FixedQueueBase.front emptyQueue3 =
        emptyQueue3.m_data.getD emptyQueue3.m_front_index default ∧
      FixedQueueBase.back emptyQueue3 = FixedQueueBase.front emptyQueue3) :=
  ⟨by decide, by decide,
    C6_amended_no_empty_check Int emptyQueue3 (by decide) (by decide)⟩

/-- C7: `operator[](index)` (embedded as `getIndex`) with `index < size`
returns the element at physical slot `(front_index + index) mod capacity`,
which is the element at logical offset `index` of the logical run; with
`index ≥ size` it fails with OutOfRange. -/
theorem C7_operator_index (T : Type) [Inhabited T]
    (q : FixedQueueBase T) (index : Nat) :
    (index < q.m_size →
      q.getIndex index = Except.ok
        (q.m_data.getD ((q.m_front_index + index) % q.m_fixed_size) default) ∧
      q.getIndex index = Except.ok ((FixedQueueBase.toVector q).getD index default)) ∧
    (q.m_size ≤ index →
      q.getIndex index = Except.error QueueError.OutOfRange) := by
  constructor
  · intro h
    have hn : ¬ q.m_size ≤ index := by omega
    constructor
    · unfold FixedQueueBase.getIndex
      rw [if_neg hn]
    · unfold FixedQueueBase.getIndex
      rw [if_neg hn, FixedQueueBase.toVector_getD q index h]
      rfl
  · intro h
    unfold FixedQueueBase.getIndex
    rw [if_pos h]

/-- Witness for C7 on the capacity-4 state with logical content [4,5]:
index 1 hits physical slot 0 and returns 5, index 2 is OutOfRange. -/
theorem C7_witness :
    (1 < scenarioQueue45.m_size ∧
      FixedQueueBase.getIndex scenarioQueue45 1 = Except.ok 5) ∧
    (scenarioQueue45.m_size ≤ 2 ∧
      FixedQueueBase.getIndex scenarioQueue45 2 = Except.error QueueError.OutOfRange) :=
  ⟨⟨by decide, ((C7_operator_index Int scenarioQueue45 1).1 (by decide)).1⟩,
   ⟨by decide, (C7_operator_index Int scenarioQueue45 2).2 (by decide)⟩⟩

/-- C3: pushing `e` into a full queue of capacity C overwrites the slot at
`front_index` with `e`, advances `front_index` by one mod C, leaves
`length()` at C, makes `e` the logically-last (back) element, and the
logical sequence becomes the old one with its front dropped and `e`
appended — so the old front occurrence is no longer in the logical run. -/
theorem C3_overwrite_on_full (T : Type) [Inhabited T]
    (q : FixedQueueBase T) (e : T)
    (hd : q.m_data.length = q.m_fixed_size)
    (hf : q.m_front_index < q.m_fixed_size)
    (hfull : q.m_size = q.m_fixed_size) :
    (q.push_back e).m_size = q.m_fixed_size ∧
    (q.push_back e).m_front_index = (q.m_front_index + 1) % q.m_fixed_size ∧
    (q.push_back e).m_data.getD q.m_front_index default = e ∧
    FixedQueueBase.toVector (q.push_back e) =
      (FixedQueueBase.toVector q).drop 1 ++ [e] ∧
    FixedQueueBase.getLogical (q.push_back e) (q.m_fixed_size - 1) = e := by
  have hnot : ¬ q.m_size < q.m_fixed_size := by omega
  have hcap : 0 < q.m_fixed_size := by omega
  refine ⟨?_, ?_, ?_, ?_, ?_⟩
  · rw [FixedQueueBase.push_back_of_full q e hnot]
    exact hfull
  · rw [FixedQueueBase.push_back_of_full q e hnot]
  · rw [FixedQueueBase.push_back_of_full q e hnot]
    exact FixedQueueBase.getD_set_self (by omega)
  · exact FixedQueueBase.toVector_push_back_of_full q e hd hf hfull
  · rw [FixedQueueBase.push_back_of_full q e hnot]
    unfold FixedQueueBase.getLogical
    dsimp only
    have hslot : ((q.m_front_index + 1) % q.m_fixed_size + (q.m_fixed_size - 1)) %
        q.m_fixed_size = q.m_front_index := by
      rw [Nat.mod_add_mod]
      have harith : q.m_front_index + 1 + (q.m_fixed_size - 1) =
          q.m_front_index + q.m_fixed_size := by omega
      rw [harith, Nat.add_mod_right, Nat.mod_eq_of_lt hf]
    rw [hslot]
    exact FixedQueueBase.getD_set_self (by omega)

/-- Witness for C3: pushing 5 into the full capacity-4 queue [1,2,3,4] (the
class comment's example) gives front_index 1, length 4, slot 0 overwritten
with 5, logical content [2,3,4,5], back element 5. -/
theorem C3_witness :
    (fullQueue4.m_data.length = fullQueue4.m_fixed_size ∧
      fullQueue4.m_front_index < fullQueue4.m_fixed_size ∧
      fullQueue4.m_size = fullQueue4.m_fixed_size) ∧
    ((FixedQueueBase.push_back fullQueue4 5).m_size = fullQueue4.m_fixed_size ∧
      (FixedQueueBase.push_back fullQueue4 5).m_front_index =
        (fullQueue4.m_front_index + 1) % fullQueue4.m_fixed_size ∧
      (FixedQueueBase.push_back fullQueue4 5).m_data.getD
        fullQueue4.m_front_index default = 5 ∧
      FixedQueueBase.toVector (FixedQueueBase.push_back fullQueue4 5) =
        (FixedQueueBase.toVector fullQueue4).drop 1 ++ [5] ∧
      FixedQueueBase.getLogical (FixedQueueBase.push_back fullQueue4 5)
        (fullQueue4.m_fixed_size - 1) = 5) :=
  ⟨⟨by decide, by decide, by decide⟩,
    C3_overwrite_on_full Int fullQueue4 5 (by decide) (by decide) (by decide)⟩

/-- C4: starting from an initial (empty) queue of positive capacity, for any
legal interleaving of single-element pushes and pops (never pushing onto a
full queue, never popping an empty one), the observed pop sequence followed
by the residual logical content equals the pushed sequence in push order;
in particular when the run drains the queue, the observed sequence equals
the pushed sequence exactly.  Wraparound states are covered since legality
allows the front index to travel arbitrarily far around the buffer. -/
theorem C4_fifo_order (T : Type) [Inhabited T] (cap : Nat) (h0 : 0 < cap)
    (data : List T) (hd : data.length = cap) (ops : List (FifoOp T))
    (hl : FixedQueueBase.legal ⟨cap, 0, 0, data⟩ ops = true) :
    (FixedQueueBase.runFifo ⟨cap, 0, 0, data⟩ ops).2 ++
      FixedQueueBase.toVector (FixedQueueBase.runFifo ⟨cap, 0, 0, data⟩ ops).1 =
      pushedList ops ∧
    ((FixedQueueBase.runFifo ⟨cap, 0, 0, data⟩ ops).1.m_size = 0 →
      (FixedQueueBase.runFifo ⟨cap, 0, 0, data⟩ ops).2 = pushedList ops) := by
  have h := FixedQueueBase.runFifo_spec ops ⟨cap, 0, 0, data⟩
    ⟨hd, h0, Nat.zero_le cap⟩ hl
  have hinit : FixedQueueBase.toVector (⟨cap, 0, 0, data⟩ : FixedQueueBase T) = [] := rfl
  have hmain : (FixedQueueBase.runFifo ⟨cap, 0, 0, data⟩ ops).2 ++
      FixedQueueBase.toVector (FixedQueueBase.runFifo ⟨cap, 0, 0, data⟩ ops).1 =
      pushedList ops := by
    rw [h.2, hinit]
    simp
  refine ⟨hmain, ?_⟩
  intro hfin
  have hempty : FixedQueueBase.toVector
      (FixedQueueBase.runFifo ⟨cap, 0, 0, data⟩ ops).1 = [] := by
    unfold FixedQueueBase.toVector
    rw [hfin]
    rfl
  rw [hempty] at hmain
  simpa using hmain

/-- Witness for C4: the wraparound trace push 1, push 2, pop, push 3, pop,
pop on a capacity-2 queue observes [1,2,3], exactly the pushed sequence. -/
theorem C4_witness :
    FixedQueueBase.legal ⟨2, 0, 0, [0, 0]⟩ fifoOps2 = true ∧
    ((FixedQueueBase.runFifo (⟨2, 0, 0, [0, 0]⟩ : FixedQueueBase Int) fifoOps2).2 ++
        FixedQueueBase.toVector
          (FixedQueueBase.runFifo (⟨2, 0, 0, [0, 0]⟩ : FixedQueueBase Int) fifoOps2).1 =
        pushedList fifoOps2 ∧
      ((FixedQueueBase.runFifo (⟨2, 0, 0, [0, 0]⟩ : FixedQueueBase Int) fifoOps2).1.m_size = 0 →
        (FixedQueueBase.runFifo (⟨2, 0, 0, [0, 0]⟩ : FixedQueueBase Int) fifoOps2).2 =
          pushedList fifoOps2)) :=
  ⟨by decide,
    C4_fifo_order Int 2 (by decide) [0, 0] (by decide) fifoOps2 (by decide)⟩

/-- C9 counterexample: the claim asserts `front_index < capacity` after every
operation sequence from the initial state, but a zero-capacity queue is
constructible (see C10) and there `front_index = 0 = capacity` — already
violated after a (rejected) pop on the initial state. -/
theorem C9_counterexample :
    ¬ ((applyOps (mkFixedQueue 0 : FixedQueueBase Int) [QOp.pop 1]).m_front_index <
        (applyOps (mkFixedQueue 0 : FixedQueueBase Int) [QOp.pop 1]).m_fixed_size) := by
  decide

/-- C9 amended: for every queue of capacity > 0, after every sequence of push
and pop operations starting from the initial state (`front_index = 0`,
`size = 0`), the occupancy satisfies `length() ≤ size()` (and trivially
`0 ≤ length()` in ℕ) and `front_index < capacity`. -/
theorem C9_amended_invariants (T : Type) [Inhabited T] (cap : Nat) (h0 : 0 < cap)
    (data : List T) (hd : data.length = cap) (ops : List (QOp T)) :
    (applyOps ⟨cap, 0, 0, data⟩ ops).m_size ≤
      (applyOps ⟨cap, 0, 0, data⟩ ops).m_fixed_size ∧
    (applyOps ⟨cap, 0, 0, data⟩ ops).m_front_index <
      (applyOps ⟨cap, 0, 0, data⟩ ops).m_fixed_size := by
  have h := FixedQueueBase.WF_applyOps ops ⟨cap, 0, 0, data⟩ ⟨hd, h0, Nat.zero_le cap⟩
  exact ⟨h.2.2, h.2.1⟩

/-- Witness for the amended C9: a capacity-2 trace with an overwriting push
and an over-large pop still satisfies both invariants at the end. -/
theorem C9_amended_witness :
    (applyOps (⟨2, 0, 0, [0, 0]⟩ : FixedQueueBase Int)
        [QOp.push 1, QOp.push 2, QOp.push 3, QOp.pop 5, QOp.pop 1]).m_size ≤
      (applyOps (⟨2, 0, 0, [0, 0]⟩ : FixedQueueBase Int)
        [QOp.push 1, QOp.push 2, QOp.push 3, QOp.pop 5, QOp.pop 1]).m_fixed_size ∧
    (applyOps (⟨2, 0, 0, [0, 0]⟩ : FixedQueueBase Int)
        [QOp.push 1, QOp.push 2, QOp.push 3, QOp.pop 5, QOp.pop 1]).m_front_index <
      (applyOps (⟨2, 0, 0, [0, 0]⟩ : FixedQueueBase Int)
        [QOp.push 1, QOp.push 2, QOp.push 3, QOp.pop 5, QOp.pop 1]).m_fixed_size :=
  C9_amended_invariants Int 2 (by decide) [0, 0] (by decide)
    [QOp.push 1, QOp.push 2, QOp.push 3, QOp.pop 5, QOp.pop 1]

/-- C2: for every well-formed queue (any capacity with `front_index <
capacity`, any fill level `size ≤ capacity`), walking the cursor from
`begin()` visits exactly `length()` elements in front-to-back logical order
(the k-th dereference is the k-th element of the logical run — so exactly C
elements on a full queue of capacity C, each slot exactly once), the cursor
equals `end()` after exactly `length()` increments and at no earlier point,
and two cursors compare equal precisely when both the physical pointer and
the wraparound-completion flag agree. -/
theorem C2_iterator_one_full_pass (T : Type) [Inhabited T]
    (q : FixedQueueBase T)
    (hf : q.m_front_index < q.m_fixed_size) (hs : q.m_size ≤ q.m_fixed_size) :
    ((List.range q.m_size).map
        (fun k => FixedQueueBase.deref q
          (FixedQueueIterator.incN q.m_fixed_size (FixedQueueBase.beginIter q) k)) =
      FixedQueueBase.toVector q) ∧
    (∀ k, k ≤ q.m_size →
      (FixedQueueIterator.beq
          (FixedQueueIterator.incN q.m_fixed_size (FixedQueueBase.beginIter q) k)
          (FixedQueueBase.endIter q) = true ↔ k = q.m_size)) ∧
    (∀ a b : FixedQueueIterator,
      FixedQueueIterator.beq a b = true ↔
        (a.m_ptr = b.m_ptr ∧ a.past_self = b.past_self)) := by
  have hbeq : ∀ a b : FixedQueueIterator,
      FixedQueueIterator.beq a b = true ↔
        (a.m_ptr = b.m_ptr ∧ a.past_self = b.past_self) := by
    intro a b
    unfold FixedQueueIterator.beq
    rw [Bool.and_eq_true, decide_eq_true_eq, decide_eq_true_eq]
  refine ⟨?_, ?_, hbeq⟩
  · apply List.map_congr_left
    intro k hk
    have hk' : k < q.m_size := List.mem_range.mp hk
    show FixedQueueBase.deref q
        (FixedQueueIterator.incN q.m_fixed_size ⟨q.m_front_index, false⟩ k) =
      FixedQueueBase.getLogical q k
    rw [FixedQueueIterator.incN_closed hf k (by omega)]
    rfl
  · intro k hk
    show FixedQueueIterator.beq
        (FixedQueueIterator.incN q.m_fixed_size ⟨q.m_front_index, false⟩ k)
        ⟨(q.m_front_index + q.m_size) % q.m_fixed_size,
          decide (q.m_fixed_size ≤ q.m_front_index + q.m_size)⟩ = true ↔ k = q.m_size
    rw [FixedQueueIterator.incN_closed hf k (by omega)]
    rw [hbeq]
    dsimp only
    constructor
    · rintro ⟨hptr, hflag⟩
      rcases FixedQueueBase.mod_add_eq_cases hk hs hptr with heq | ⟨hk0, hscap⟩
      · exact heq
      · exfalso
        rw [decide_eq_decide] at hflag
        omega
    · intro heq
      rw [heq]
      exact ⟨rfl, rfl⟩

/-- Witness for C2 on a full capacity-3 queue with front at slot 1 (logical
content [10,20,30]): the traversal yields the logical run, and the begin
cursor only equals the end cursor after all 3 increments. -/
theorem C2_witness :
    (fullQueue3.m_front_index < fullQueue3.m_fixed_size ∧
      fullQueue3.m_size ≤ fullQueue3.m_fixed_size) ∧
    ((List.range fullQueue3.m_size).map
        (fun k => FixedQueueBase.deref fullQueue3
          (FixedQueueIterator.incN fullQueue3.m_fixed_size
            (FixedQueueBase.beginIter fullQueue3) k)) =
      FixedQueueBase.toVector fullQueue3 ∧
      (∀ k, k ≤ fullQueue3.m_size →
        (FixedQueueIterator.beq
            (FixedQueueIterator.incN fullQueue3.m_fixed_size
              (FixedQueueBase.beginIter fullQueue3) k)
            (FixedQueueBase.endIter fullQueue3) = true ↔ k = fullQueue3.m_size)) ∧
      (∀ a b : FixedQueueIterator,
        FixedQueueIterator.beq a b = true ↔
          (a.m_ptr = b.m_ptr ∧ a.past_self = b.past_self))) :=
  ⟨⟨by decide, by decide⟩,
    C2_iterator_one_full_pass Int fullQueue3 (by decide) (by decide)⟩

/-- C8: for every non-empty queue and `offset < size`, `iOfMax`/`iOfMin`
return the logical index, in the scanned range `[offset, size)`, of the
first occurrence of the maximum/minimum over that range (so on ties the
first occurrence scanning forward from `offset` wins), with `max`/`min`
returning the corresponding values; with `offset ≥ size` all four fail with
OutOfRange. -/
theorem C8_stat_scans (T : Type) [Inhabited T] [LinearOrder T]
    (q : FixedQueueBase T) (offset : Nat) :
    (offset < q.m_size →
      ∃ i, FixedQueueBase.iOfMax q offset = Except.ok i ∧
        FixedQueueBase.max q offset = Except.ok (FixedQueueBase.getLogical q i) ∧
        offset ≤ i ∧ i < q.m_size ∧
        (∀ j, offset ≤ j → j < q.m_size →
          FixedQueueBase.getLogical q j ≤ FixedQueueBase.getLogical q i) ∧
        (∀ j, offset ≤ j → j < i →
          FixedQueueBase.getLogical q j < FixedQueueBase.getLogical q i)) ∧
    (offset < q.m_size →
      ∃ i, FixedQueueBase.iOfMin q offset = Except.ok i ∧
        FixedQueueBase.min q offset = Except.ok (FixedQueueBase.getLogical q i) ∧
        offset ≤ i ∧ i < q.m_size ∧
        (∀ j, offset ≤ j → j < q.m_size →
          FixedQueueBase.getLogical q i ≤ FixedQueueBase.getLogical q j) ∧
        (∀ j, offset ≤ j → j < i →
          FixedQueueBase.getLogical q i < FixedQueueBase.getLogical q j)) ∧
    (q.m_size ≤ offset →
      FixedQueueBase.iOfMax q offset = Except.error QueueError.OutOfRange ∧
      FixedQueueBase.iOfMin q offset = Except.error QueueError.OutOfRange ∧
      FixedQueueBase.max q offset = Except.error QueueError.OutOfRange ∧
      FixedQueueBase.min q offset = Except.error QueueError.OutOfRange) := by
  refine ⟨?_, ?_, ?_⟩
  · intro h
    have hn : ¬ q.m_size ≤ offset := by omega
    have hok : FixedQueueBase.iOfMax q offset =
        Except.ok (FixedQueueBase.scanMaxIdx q offset (offset + 1)
          (q.m_size - (offset + 1))) := by
      unfold FixedQueueBase.iOfMax
      rw [if_neg hn]
    obtain ⟨c1, c2, c3, c4⟩ := FixedQueueBase.scanMaxIdx_spec q offset
      (q.m_size - (offset + 1)) offset (offset + 1) (Nat.le_refl offset) (by omega)
      (by
        intro j hj1 hj2
        have : j = offset := by omega
        rw [this])
      (by intro j hj1 hj2; omega)
    have hend : offset + 1 + (q.m_size - (offset + 1)) = q.m_size := by omega
    refine ⟨FixedQueueBase.scanMaxIdx q offset (offset + 1) (q.m_size - (offset + 1)),
      hok, ?_, c1, by omega, fun j hj1 hj2 => c3 j hj1 (by omega), c4⟩
    unfold FixedQueueBase.max
    rw [hok]
  · intro h
    have hn : ¬ q.m_size ≤ offset := by omega
    have hok : FixedQueueBase.iOfMin q offset =
        Except.ok (FixedQueueBase.scanMinIdx q offset (offset + 1)
          (q.m_size - (offset + 1))) := by
      unfold FixedQueueBase.iOfMin
      rw [if_neg hn]
    obtain ⟨c1, c2, c3, c4⟩ := FixedQueueBase.scanMinIdx_spec q offset
      (q.m_size - (offset + 1)) offset (offset + 1) (Nat.le_refl offset) (by omega)
      (by
        intro j hj1 hj2
        have : j = offset := by omega
        rw [this])
      (by intro j hj1 hj2; omega)
    refine ⟨FixedQueueBase.scanMinIdx q offset (offset + 1) (q.m_size - (offset + 1)),
      hok, ?_, c1, by omega, fun j hj1 hj2 => c3 j hj1 (by omega), c4⟩
    unfold FixedQueueBase.min
    rw [hok]
  · intro h
    have hmax : FixedQueueBase.iOfMax q offset = Except.error QueueError.OutOfRange := by
      unfold FixedQueueBase.iOfMax
      rw [if_pos h]
    have hmin : FixedQueueBase.iOfMin q offset = Except.error QueueError.OutOfRange := by
      unfold FixedQueueBase.iOfMin
      rw [if_pos h]
    refine ⟨hmax, hmin, ?_, ?_⟩
    · unfold FixedQueueBase.max
      rw [hmax]
    · unfold FixedQueueBase.min
      rw [hmin]

/-- Witness for C8 on the spec scenario (capacity 5, pushed 10,20,30):
`iOfMax()` returns 2, `iOfMin(1)` returns 1, and offset 3 is OutOfRange. -/
theorem C8_witness :
    FixedQueueBase.iOfMax scenarioQueue530 0 = Except.ok 2 ∧
    FixedQueueBase.iOfMin scenarioQueue530 1 = Except.ok 1 ∧
    FixedQueueBase.max scenarioQueue530 0 = Except.ok 30 ∧
    FixedQueueBase.min scenarioQueue530 1 = Except.ok 20 ∧
    (scenarioQueue530.m_size ≤ 3 ∧
      (FixedQueueBase.iOfMax scenarioQueue530 3 = Except.error QueueError.OutOfRange ∧
        FixedQueueBase.iOfMin scenarioQueue530 3 = Except.error QueueError.OutOfRange ∧
        FixedQueueBase.max scenarioQueue530 3 = Except.error QueueError.OutOfRange ∧
        FixedQueueBase.min scenarioQueue530 3 = Except.error QueueError.OutOfRange)) :=
  ⟨by rfl, by rfl, by rfl, by rfl,
    ⟨by decide, (C8_stat_scans Int scenarioQueue530 3).2.2 (by decide)⟩⟩

/-- C10: a `FixedQueue` is constructible with capacity 0 (the constructor's
argument defaults to `size = 0`), and on every zero-capacity queue the
source expression of `back()`, `(m_front_index + m_size) % m_fixed_size`,
divides by zero — undefined behavior in C++, `none` in the checked
embedding — so `back()` is not total on zero-capacity queues. -/
theorem C10_zero_capacity_back_not_total (T : Type) [Inhabited T] :
    (mkFixedQueue 0 : FixedQueueBase T).m_fixed_size = 0 ∧
    ∀ q : FixedQueueBase T, q.m_fixed_size = 0 →
      FixedQueueBase.backChecked q = none := by
  refine ⟨rfl, ?_⟩
  intro q h
  unfold FixedQueueBase.backChecked
  rw [if_pos h]

/-- Witness for C10: the default-constructed (capacity 0) queue of Ints has
no total `back()`. -/
theorem C10_witness :
    (mkFixedQueue 0 : FixedQueueBase Int).m_fixed_size = 0 ∧
    FixedQueueBase.backChecked (mkFixedQueue 0 : FixedQueueBase Int) = none :=
  ⟨(C10_zero_capacity_back_not_total Int).1,
   (C10_zero_capacity_back_not_total Int).2 (mkFixedQueue 0) rfl⟩

end ADS
